import Mathlib

/-!
Shallow embedding of the chunk-and-recursively-summarize pipeline of the
YouTube-Summarizer repository (`src/app.py` and `src/app2.py`; the two files
contain byte-identical `chunk_text`, `recursive_summarize` and
`format_summary_pointwise` functions, and two variants of `refine_with_llm`).

Text is modelled as `List Char`.  Python's summarization model call is an
injected function; exceptions are modelled with `Except`.  All definitions
are executable structural recursions, so concrete runs reduce in the kernel.
-/

namespace YTSum

/-- The ASCII whitespace characters removed by Python's `str.strip()`. -/
def isSpace (c : Char) : Bool := c = ' ' || c = '\t' || c = '\n' || c = '\r'

/-- Sentence-terminal punctuation of the regex `(?<=[.!?]) +` used by
`chunk_text` and `format_summary_pointwise`. -/
def isPunct (c : Char) : Bool := c = '.' || c = '!' || c = '?'

/-- Removal of leading whitespace: the left half of Python's `strip`. -/
def stripLeft (l : List Char) : List Char := l.dropWhile isSpace

/-- Python `str.strip()`: drop leading and trailing whitespace. -/
def strip (l : List Char) : List Char :=
  ((stripLeft l).reverse.dropWhile isSpace).reverse

/-- The boundary test of `re.split(r'(?<=[.!?]) +', text)`: a space character
whose immediately preceding character is `.`, `!` or `?`. -/
def boundaryAt (prev : Option Char) (c : Char) : Bool :=
  c = ' ' && (match prev with | some p => isPunct p | none => false)

/-- Scanner for `re.split(r'(?<=[.!?]) +', text)`.  `some acc` holds the
current sentence in reverse; `none` means we are inside the (greedy) run of
spaces that forms a separator match. -/
def splitAux : List Char → Option (List Char) → List (List Char)
  | [], none => [[]]
  | [], some acc => [acc.reverse]
  | c :: cs, none =>
    if c = ' ' then splitAux cs none else splitAux cs (some [c])
  | c :: cs, some acc =>
    if boundaryAt acc.head? c then acc.reverse :: splitAux cs none
    else splitAux cs (some (c :: acc))

/-- `re.split(r'(?<=[.!?]) +', text)` — the sentence splitter shared by
`chunk_text` and `format_summary_pointwise`. -/
def splitSentences (text : List Char) : List (List Char) :=
  splitAux text (some [])

/-- The sentence-accumulation loop of `chunk_text`: `cur` is the running
buffer; when the next sentence does not fit, `cur.strip()` is emitted and the
buffer restarts with that sentence; a final non-whitespace buffer is emitted. -/
def chunkAux (maxChunk : Nat) : List (List Char) → List Char → List (List Char)
  | [], cur => if strip cur = [] then [] else [strip cur]
  | s :: rest, cur =>
    if cur.length + s.length + 1 ≤ maxChunk then
      chunkAux maxChunk rest (cur ++ s ++ [' '])
    else
      strip cur :: chunkAux maxChunk rest (s ++ [' '])

/-- `chunk_text(text, max_chunk)` from src/app.py lines 110–123
(byte-identical in src/app2.py lines 67–81). -/
def chunk_text (text : List Char) (maxChunk : Nat) : List (List Char) :=
  chunkAux maxChunk (splitSentences text) []

/-- Python's `sep.join(parts)`. -/
def joinSep (sep : List Char) : List (List Char) → List Char
  | [] => []
  | [x] => x
  | x :: y :: rest => x ++ sep ++ joinSep sep (y :: rest)

/-- Python's `" ".join(parts)`. -/
def joinSpace : List (List Char) → List Char := joinSep [' ']

/-- One chunk-summarize-concatenate pass: chunk `text` with the given
budget, summarize every chunk in order with `f`, join with single spaces
(the body of each pass of `recursive_summarize`). -/
def summarizePass (f : List Char → List Char) (budget : Nat)
    (text : List Char) : List Char :=
  joinSpace ((chunk_text text budget).map f)

/-- `recursive_summarize(text)` from src/app.py lines 125–140 (identical in
src/app2.py lines 83–99): one chunk-summarize-join pass with budget 2000
(`combined_summary`), and a single further pass when the concatenation
exceeds 3000 characters.  The summarization model call is the injected `f`;
the Streamlit progress bar is a data-free side effect and is omitted. -/
def recursive_summarize (f : List Char → List Char) (text : List Char) :
    List Char :=
  if 3000 < (summarizePass f 2000 text).length then
    summarizePass f 2000 (summarizePass f 2000 text)
  else summarizePass f 2000 text

/-- The number of summarizer invocations `recursive_summarize` performs:
one per chunk of the first pass, plus one per chunk of the second pass when
the first concatenation exceeds 3000 characters. -/
def summarizeCalls (f : List Char → List Char) (text : List Char) : Nat :=
  if 3000 < (summarizePass f 2000 text).length then
    (chunk_text text 2000).length +
      (chunk_text (summarizePass f 2000 text) 2000).length
  else (chunk_text text 2000).length

/-- Modelled from the spec: the source's `recursive_summarize` hardcodes at
most one extra pass and has no `max_passes` parameter; the spec's Recursive
Summary Reducer takes an explicit `max_passes` bound and repeats
chunk-summarize-concatenate passes until the concatenation is within
`thr` or the bound is exhausted (then the last concatenation is returned
as-is).  Returns the summary together with the number of passes performed. -/
def boundedReduce (f : List Char → List Char) (budget thr : Nat) :
    Nat → List Char → List Char × Nat
  | 0, text => (text, 0)
  | Nat.succ n, text =>
    if (summarizePass f budget text).length ≤ thr then
      (summarizePass f budget text, 1)
    else
      ((boundedReduce f budget thr n (summarizePass f budget text)).1,
       (boundedReduce f budget thr n (summarizePass f budget text)).2 + 1)

/-- `format_summary_pointwise(summary_text)` from src/app.py lines 142–146
(identical in src/app2.py lines 101–106): re-split into sentences, keep the
sentences whose strip is non-empty, render `• `-prefixed lines. -/
def format_summary_pointwise (summary : List Char) : List Char :=
  joinSep ['\n']
    (((splitSentences summary).filter (fun p => !(strip p).isEmpty)).map
      (fun p => '•' :: ' ' :: strip p))

/-- Split a character list at every occurrence of `c` (used to count the
lines of a bulleted summary). -/
def splitOnChar (c : Char) : List Char → List (List Char)
  | [] => [[]]
  | x :: xs =>
    if x = c then [] :: splitOnChar c xs
    else
      match splitOnChar c xs with
      | [] => [[x]]
      | l :: ls => (x :: l) :: ls

/-- A rendered line is a bullet point when it begins with the bullet
character. -/
def startsBullet : List Char → Bool
  | '•' :: _ => true
  | _ => false

/-- The number of bullet points a rendered summary has: the number of its
lines that begin with the bullet character. -/
def countBullets (s : List Char) : Nat :=
  (splitOnChar '\n' s).countP startsBullet

/-- An already-bulleted summary: one `• `-prefixed line per item, lines
joined by newlines (the exact shape `format_summary_pointwise` renders). -/
def bulleted (ps : List (List Char)) : List Char :=
  joinSep ['\n'] (ps.map (fun p => '•' :: ' ' :: p))

/-- `scanOk prev l` holds when scanning `l` (with `prev` the character seen
just before `l`) meets no sentence boundary of `re.split(r'(?<=[.!?]) +', ·)`. -/
def scanOk : Option Char → List Char → Bool
  | _, [] => true
  | prev, c :: cs => !boundaryAt prev c && scanOk (some c) cs

/-- The last character is sentence-terminal punctuation. -/
def endsPunct (p : List Char) : Bool :=
  match p.reverse with
  | a :: _ => isPunct a
  | [] => false

/-- The in-order effectful map of the summarization loop: Python's
`for chunk in chunks: summaries.append(summarizer(chunk))` where the call can
raise — the first exception propagates and no partial list survives. -/
def mapME (f : List Char → Except ε (List Char)) :
    List (List Char) → Except ε (List (List Char))
  | [] => .ok []
  | c :: cs =>
    match f c with
    | .error e => .error e
    | .ok y =>
      match mapME f cs with
      | .error e => .error e
      | .ok ys => .ok (y :: ys)

/-- `recursive_summarize` with a fallible summarizer: the body has no
`try/except`, so an exception raised on any chunk of either pass aborts the
whole computation (the Streamlit caller catches it and renders an error,
returning no summary). -/
def recursive_summarizeE (f : List Char → Except ε (List Char))
    (text : List Char) : Except ε (List Char) :=
  match mapME f (chunk_text text 2000) with
  | .error e => .error e
  | .ok summaries =>
    if 3000 < (joinSpace summaries).length then
      match mapME f (chunk_text (joinSpace summaries) 2000) with
      | .error e => .error e
      | .ok s2 => .ok (joinSpace s2)
    else .ok (joinSpace summaries)

/-- `refine_with_llm(bulleted_summary, ...)` from src/app.py lines 151–174:
with no API key it returns `(bulleted_summary, None)`; otherwise the hosted
call either succeeds (refined text, no error) or its exception is caught and
`(bulleted_summary, "LLM refine failed: ...")` is returned.  `apiKey`
abstracts `os.getenv`/`st.secrets`, `llm` the ChatCompletion request. -/
def refine_with_llm (apiKey : Option (List Char))
    (llm : List Char → Except (List Char) (List Char))
    (bulletedSummary : List Char) : List Char × Option (List Char) :=
  match apiKey with
  | none => (bulletedSummary, none)
  | some _ =>
    match llm bulletedSummary with
    | .ok refined => (refined, none)
    | .error e => (bulletedSummary, some ("LLM refine failed: ".data ++ e))

/-- A Python return value that is either a bare string or a
`(summary, error)` pair — `refine_with_llm` in src/app2.py mixes the two. -/
inductive PyRet where
  | bare (s : List Char)
  | pair (s : List Char) (err : Option (List Char))
deriving DecidableEq

/-- `refine_with_llm(bulleted_summary, ...)` from src/app2.py lines 111–159:
unlike app.py, the no-key path returns the bare summary string (line 127)
while the other paths return 2-tuples. -/
def refine_with_llm_app2 (apiKey : Option (List Char))
    (llm : List Char → Except (List Char) (List Char))
    (bulletedSummary : List Char) : PyRet :=
  match apiKey with
  | none => PyRet.bare bulletedSummary
  | some _ =>
    match llm bulletedSummary with
    | .ok refined => PyRet.pair refined none
    | .error e => PyRet.pair bulletedSummary
        (some ("LLM refine failed: ".data ++ e))

/-- The caller's `refined_summary, llm_error = refine_with_llm(...)`
(src/app2.py line 191): Python tuple unpacking.  A pair unpacks as itself; a
bare string is iterated character-by-character, so it unpacks only when it
has exactly two characters, and otherwise raises `ValueError`. -/
def unpackRefine : PyRet → Except (List Char) (List Char × Option (List Char))
  | .pair s e => .ok (s, e)
  | .bare s =>
    match s with
    | [a, b] => .ok ([a], some [b])
    | _ => .error "ValueError: unpack".data

/-- The character just before the end of `prev ++ a`, as an option. -/
def lastO (prev : Option Char) (a : List Char) : Option Char :=
  match a.reverse with
  | x :: _ => some x
  | [] => prev

/-! ### Basic `dropWhile` facts -/

theorem dropWhile_sub (p : Char → Bool) (l : List Char) :
    ∃ t, t ++ l.dropWhile p = l := by
  induction l with
  | nil => exact ⟨[], rfl⟩
  | cons c cs ih =>
    by_cases hc : p c
    · obtain ⟨t, ht⟩ := ih
      exact ⟨c :: t, by simp [List.dropWhile_cons, hc, ht]⟩
    · exact ⟨[], by simp [List.dropWhile_cons, hc]⟩

theorem len_dropWhile (p : Char → Bool) (l : List Char) :
    (l.dropWhile p).length ≤ l.length := by
  obtain ⟨t, ht⟩ := dropWhile_sub p l
  have := congrArg List.length ht
  simp only [List.length_append] at this
  omega

theorem dropWhile_head_false (p : Char → Bool) (l : List Char) (a : Char)
    (h : (l.dropWhile p).head? = some a) : p a = false := by
  induction l with
  | nil => simp at h
  | cons c cs ih =>
    by_cases hc : p c
    · rw [List.dropWhile_cons, if_pos hc] at h
      exact ih h
    · rw [List.dropWhile_cons, if_neg hc] at h
      simp only [List.head?_cons, Option.some.injEq] at h
      subst h
      exact Bool.eq_false_iff.mpr hc

theorem dropWhile_eq_self (p : Char → Bool) (l : List Char)
    (h : ∀ a, l.head? = some a → p a = false) : l.dropWhile p = l := by
  cases l with
  | nil => rfl
  | cons c cs =>
    rw [List.dropWhile_cons, if_neg]
    simp [h c rfl]

theorem dropWhile_eq_self_of_length (p : Char → Bool) (l : List Char)
    (h : (l.dropWhile p).length = l.length) : l.dropWhile p = l := by
  obtain ⟨t, ht⟩ := dropWhile_sub p l
  have hlen := congrArg List.length ht
  simp only [List.length_append] at hlen
  have : t = [] := List.eq_nil_of_length_eq_zero (by omega)
  subst this
  simpa using ht

theorem dropWhile_cons_false (p : Char → Bool) (a : Char) (w : List Char)
    (h : (a :: w).dropWhile p = a :: w) : p a = false := by
  by_cases hp : p a
  · rw [List.dropWhile_cons, if_pos hp] at h
    have := congrArg List.length h
    have hle := len_dropWhile p w
    simp only [List.length_cons] at this
    omega
  · exact Bool.eq_false_iff.mpr hp

/-! ### `strip` facts -/

theorem strip_len_le_stripLeft (l : List Char) :
    (strip l).length ≤ (stripLeft l).length := by
  have := len_dropWhile isSpace (stripLeft l).reverse
  simpa [strip] using this

theorem strip_length_le (l : List Char) : (strip l).length ≤ l.length :=
  le_trans (strip_len_le_stripLeft l) (len_dropWhile isSpace l)

theorem stripLeft_of_strip (x : List Char) (hx : strip x = x) :
    stripLeft x = x := by
  have h1 : (strip x).length ≤ (stripLeft x).length := strip_len_le_stripLeft x
  have h2 : (stripLeft x).length ≤ x.length := len_dropWhile isSpace x
  rw [hx] at h1
  simp only [stripLeft] at h1 h2 ⊢
  exact dropWhile_eq_self_of_length isSpace x (by omega)

theorem clean_head (a : Char) (w : List Char) (hx : strip (a :: w) = a :: w) :
    isSpace a = false :=
  dropWhile_cons_false isSpace a w (stripLeft_of_strip (a :: w) hx)

theorem clean_revhead (x : List Char) (a : Char) (w : List Char)
    (hx : strip x = x) (he : x.reverse = a :: w) : isSpace a = false := by
  have hL : stripLeft x = x := stripLeft_of_strip x hx
  have hR : x.reverse.dropWhile isSpace = x.reverse := by
    have h2 : (x.reverse.dropWhile isSpace).reverse = x := by
      have h3 := hx
      simp only [strip, hL] at h3
      exact h3
    have h4 := congrArg List.reverse h2
    simpa using h4
  rw [he] at hR
  exact dropWhile_cons_false isSpace a w hR

theorem strip_eq_self (l : List Char)
    (h1 : ∀ a, l.head? = some a → isSpace a = false)
    (h2 : ∀ a, l.reverse.head? = some a → isSpace a = false) :
    strip l = l := by
  have hL : stripLeft l = l := dropWhile_eq_self isSpace l h1
  have hR : l.reverse.dropWhile isSpace = l.reverse :=
    dropWhile_eq_self isSpace l.reverse h2
  simp [strip, hL, hR]

theorem head?_append_left {α : Type} (x z : List α) (h : x ≠ []) :
    (x ++ z).head? = x.head? := by
  cases x with
  | nil => exact absurd rfl h
  | cons a w => simp

theorem strip_idem (l : List Char) : strip (strip l) = strip l := by
  apply strip_eq_self
  · intro a ha
    obtain ⟨t, ht⟩ := dropWhile_sub isSpace (stripLeft l).reverse
    have hsl : stripLeft l = strip l ++ t.reverse := by
      have := congrArg List.reverse ht
      simpa [strip, List.reverse_append] using this.symm
    have hne : strip l ≠ [] := by
      intro hnil
      rw [hnil] at ha
      simp at ha
    have : (stripLeft l).head? = some a := by
      rw [hsl, head?_append_left _ _ hne, ha]
    exact dropWhile_head_false isSpace l a this
  · intro a ha
    have : (strip l).reverse = (stripLeft l).reverse.dropWhile isSpace := by
      simp [strip]
    rw [this] at ha
    exact dropWhile_head_false isSpace (stripLeft l).reverse a ha

theorem stripLeft_append_nil (l m : List Char) (h : stripLeft l = []) :
    stripLeft (l ++ m) = stripLeft m := by
  induction l with
  | nil => simp
  | cons c cs ih =>
    by_cases hc : isSpace c
    · rw [List.cons_append]
      unfold stripLeft at *
      rw [List.dropWhile_cons, if_pos hc]
      rw [List.dropWhile_cons, if_pos hc] at h
      exact ih h
    · exfalso
      unfold stripLeft at h
      rw [List.dropWhile_cons, if_neg hc] at h
      exact List.cons_ne_nil _ _ h

theorem stripLeft_append_ne (l m : List Char) (h : stripLeft l ≠ []) :
    stripLeft (l ++ m) = stripLeft l ++ m := by
  induction l with
  | nil => exact absurd rfl h
  | cons c cs ih =>
    simp only [stripLeft] at h ih ⊢
    rw [List.cons_append, List.dropWhile_cons, List.dropWhile_cons]
    rw [List.dropWhile_cons] at h
    by_cases hc : isSpace c
    · rw [if_pos hc] at h ⊢
      rw [if_pos hc]
      exact ih h
    · rw [if_neg hc, if_neg hc, List.cons_append]

theorem strip_append_space (l : List Char) : strip (l ++ [' ']) = strip l := by
  by_cases h : stripLeft l = []
  · have h1 : stripLeft (l ++ [' ']) = [] := by
      rw [stripLeft_append_nil l [' '] h]
      rfl
    simp [strip, h, h1]
  · rw [strip, stripLeft_append_ne l [' '] h]
    simp only [List.reverse_append, List.reverse_cons, List.reverse_nil,
      List.nil_append, List.singleton_append]
    rw [List.dropWhile_cons, if_pos (by rfl : isSpace ' ' = true)]
    rfl

/-! ### `joinSep` facts -/

theorem joinSep_cons2 (sep x y : List Char) (rest : List (List Char)) :
    joinSep sep (x :: y :: rest) = x ++ sep ++ joinSep sep (y :: rest) := rfl

theorem joinSep_append (sep : List Char) (A B : List (List Char))
    (hA : A ≠ []) (hB : B ≠ []) :
    joinSep sep (A ++ B) = joinSep sep A ++ sep ++ joinSep sep B := by
  induction A with
  | nil => exact absurd rfl hA
  | cons x A' ih =>
    cases A' with
    | nil =>
      cases B with
      | nil => exact absurd rfl hB
      | cons y r => simp [joinSep]
    | cons x' A'' =>
      rw [List.cons_append, List.cons_append,
        joinSep_cons2 sep x x' (A'' ++ B),
        ← List.cons_append, ih (List.cons_ne_nil _ _), joinSep_cons2]
      simp [List.append_assoc]

theorem joinSpace_snoc (g : List (List Char)) (s : List Char) (hg : g ≠ []) :
    joinSpace (g ++ [s]) = joinSpace g ++ ' ' :: s := by
  rw [joinSpace, joinSep_append [' '] g [s] hg (List.cons_ne_nil _ _)]
  simp [joinSep, joinSpace]

theorem joinSpace_ne_nil (g : List (List Char)) (hg : g ≠ [])
    (h : ∀ x ∈ g, x ≠ []) : joinSpace g ≠ [] := by
  cases g with
  | nil => exact absurd rfl hg
  | cons x rest =>
    have hx : x ≠ [] := h x (List.mem_cons_self _ _)
    cases rest with
    | nil => exact hx
    | cons y r =>
      rw [joinSpace, joinSep_cons2]
      cases x with
      | nil => exact absurd rfl hx
      | cons a w => simp

/-! ### Chunker invariants -/

theorem chunkAux_mem_strip (B : Nat) (ss : List (List Char)) :
    ∀ cur c, c ∈ chunkAux B ss cur → ∃ x, c = strip x := by
  induction ss with
  | nil =>
    intro cur c hc
    simp only [chunkAux] at hc
    by_cases h : strip cur = []
    · rw [if_pos h] at hc
      simp at hc
    · rw [if_neg h] at hc
      simp only [List.mem_singleton] at hc
      exact ⟨cur, hc⟩
  | cons s rest ih =>
    intro cur c hc
    simp only [chunkAux] at hc
    by_cases h : cur.length + s.length + 1 ≤ B
    · rw [if_pos h] at hc
      exact ih _ c hc
    · rw [if_neg h] at hc
      rcases List.mem_cons.mp hc with h1 | h2
      · exact ⟨cur, h1⟩
      · exact ih _ c h2

/-- Every chunk in the accumulation loop's output either fits the budget or
is the strip of a single oversized input sentence. -/
theorem chunkAux_soft_bound (B : Nat) (S : List (List Char)) :
    ∀ ss cur, (∀ x ∈ ss, x ∈ S) →
    ((strip cur).length ≤ B ∨ ∃ s ∈ S, strip cur = strip s ∧ B < s.length) →
    ∀ c ∈ chunkAux B ss cur,
      c.length ≤ B ∨ ∃ s ∈ S, c = strip s ∧ B < s.length := by
  intro ss
  induction ss with
  | nil =>
    intro cur _ hcur c hc
    simp only [chunkAux] at hc
    by_cases h : strip cur = []
    · rw [if_pos h] at hc
      simp at hc
    · rw [if_neg h] at hc
      simp only [List.mem_singleton] at hc
      subst hc
      exact hcur
  | cons s rest ih =>
    intro cur hss hcur c hc
    simp only [chunkAux] at hc
    by_cases h : cur.length + s.length + 1 ≤ B
    · rw [if_pos h] at hc
      refine ih _ (fun x hx => hss x (List.mem_cons_of_mem s hx)) ?_ c hc
      left
      calc (strip (cur ++ s ++ [' '])).length
          ≤ (cur ++ s ++ [' ']).length := strip_length_le _
        _ = cur.length + s.length + 1 := by
            simp only [List.length_append, List.length_cons, List.length_nil]
        _ ≤ B := h
    · rw [if_neg h] at hc
      rcases List.mem_cons.mp hc with h1 | h2
      · subst h1
        exact hcur
      · refine ih _ (fun x hx => hss x (List.mem_cons_of_mem s hx)) ?_ c h2
        rw [strip_append_space]
        by_cases hs : (strip s).length ≤ B
        · exact Or.inl hs
        · refine Or.inr ⟨s, hss s (List.mem_cons_self s rest), rfl, ?_⟩
          have := strip_length_le s
          omega

theorem joinSpace_cons2 (x y : List Char) (rest : List (List Char)) :
    joinSpace (x :: y :: rest) = x ++ [' '] ++ joinSpace (y :: rest) := rfl

theorem joinSpace_append (A B : List (List Char)) (hA : A ≠ []) (hB : B ≠ []) :
    joinSpace (A ++ B) = joinSpace A ++ [' '] ++ joinSpace B :=
  joinSep_append [' '] A B hA hB

/-- The single-space join of a non-empty group of non-empty, already-stripped
sentences is itself already stripped. -/
theorem joinSpace_strip (g : List (List Char)) (hg : g ≠ [])
    (hclean : ∀ x ∈ g, x ≠ [] ∧ strip x = x) :
    strip (joinSpace g) = joinSpace g := by
  apply strip_eq_self
  · intro a ha
    cases g with
    | nil => exact absurd rfl hg
    | cons x rest =>
      have hx := hclean x (List.mem_cons_self _ _)
      have hhead : (joinSpace (x :: rest)).head? = x.head? := by
        cases rest with
        | nil => rfl
        | cons y r =>
          rw [joinSpace_cons2, List.append_assoc]
          exact head?_append_left x _ hx.1
      rw [hhead] at ha
      cases x with
      | nil => simp at ha
      | cons b w =>
        simp only [List.head?_cons, Option.some.injEq] at ha
        subst ha
        exact clean_head _ _ hx.2
  · intro a ha
    rcases List.eq_nil_or_concat g with rfl | ⟨A, p, hgp⟩
    · exact absurd rfl hg
    · rw [List.concat_eq_append] at hgp
      subst hgp
      have hp := hclean p (by simp)
      have hrev : (joinSpace (A ++ [p])).reverse.head? = p.reverse.head? := by
        cases A with
        | nil =>
          rfl
        | cons x A' =>
          rw [joinSpace_snoc (x :: A') p (List.cons_ne_nil _ _),
            List.reverse_append, List.reverse_cons]
          cases hpr : p.reverse with
          | nil =>
            exact absurd (by simpa using congrArg List.reverse hpr) hp.1
          | cons b w => simp [hpr]
      rw [hrev] at ha
      cases hpr : p.reverse with
      | nil => exact absurd (by simpa using congrArg List.reverse hpr) hp.1
      | cons b w =>
        rw [hpr] at ha
        simp only [List.head?_cons, Option.some.injEq] at ha
        rw [← ha]
        exact clean_revhead p b w hp.2 hpr

/-- The join-preservation invariant of the accumulation loop: when the
buffer holds the single-space join of a non-empty group `g` of clean
sentences (plus the trailing space the code keeps), the loop's chunks join
back to the single-space join of `g` followed by the remaining sentences. -/
theorem chunkAux_join (B : Nat) :
    ∀ (ss : List (List Char)) (g : List (List Char)), g ≠ [] →
    (∀ x ∈ g, x ≠ [] ∧ strip x = x) →
    (∀ s ∈ ss, s ≠ [] ∧ strip s = s) →
    joinSpace (chunkAux B ss (joinSpace g ++ [' '])) = joinSpace (g ++ ss) := by
  intro ss
  induction ss with
  | nil =>
    intro g hg hclean _
    have hjs : strip (joinSpace g ++ [' ']) = joinSpace g := by
      rw [strip_append_space]
      exact joinSpace_strip g hg hclean
    have hne : joinSpace g ≠ [] :=
      joinSpace_ne_nil g hg (fun x hx => (hclean x hx).1)
    simp only [chunkAux]
    rw [if_neg (by rw [hjs]; exact hne), hjs]
    simp [joinSpace, joinSep]
  | cons s rest ih =>
    intro g hg hclean hss
    have hs := hss s (List.mem_cons_self _ _)
    have hrest : ∀ x ∈ rest, x ≠ [] ∧ strip x = x :=
      fun x hx => hss x (List.mem_cons_of_mem s hx)
    simp only [chunkAux]
    by_cases h : (joinSpace g ++ [' ']).length + s.length + 1 ≤ B
    · rw [if_pos h]
      have harg : joinSpace g ++ [' '] ++ s ++ [' '] =
          joinSpace (g ++ [s]) ++ [' '] := by
        rw [joinSpace_snoc g s hg]
        simp
      rw [harg]
      have hstep := ih (g ++ [s]) (by simp)
        (by
          intro x hx
          rcases List.mem_append.mp hx with h1 | h2
          · exact hclean x h1
          · rw [List.mem_singleton] at h2
            subst h2
            exact hs)
        hrest
      rw [hstep, List.append_assoc]
      rfl
    · rw [if_neg h]
      have hjs : strip (joinSpace g ++ [' ']) = joinSpace g := by
        rw [strip_append_space]
        exact joinSpace_strip g hg hclean
      rw [hjs]
      have hIH : joinSpace (chunkAux B rest (s ++ [' '])) =
          joinSpace (s :: rest) :=
        ih [s] (List.cons_ne_nil _ _)
          (by
            intro x hx
            rw [List.mem_singleton] at hx
            subst hx
            exact hs)
          hrest
      have hLne : chunkAux B rest (s ++ [' ']) ≠ [] := by
        intro h0
        have hjoin := joinSpace_ne_nil (s :: rest) (List.cons_ne_nil _ _)
          (fun x hx => (hss x hx).1)
        rw [h0] at hIH
        exact hjoin hIH.symm
      cases hL : chunkAux B rest (s ++ [' ']) with
      | nil => exact absurd hL hLne
      | cons y r =>
        rw [hL] at hIH
        calc joinSpace (joinSpace g :: y :: r)
            = joinSpace g ++ [' '] ++ joinSpace (y :: r) :=
              joinSpace_cons2 _ _ _
          _ = joinSpace g ++ [' '] ++ joinSpace (s :: rest) := by rw [hIH]
          _ = joinSpace (g ++ s :: rest) :=
              (joinSpace_append g (s :: rest) hg (List.cons_ne_nil _ _)).symm

/-! ### Claims about the chunker -/

/-- C1 (counterexample to the claim as stated): at `T = "ab"`, `B = 1` the
chunker emits a leading empty chunk, so joining the chunks with single
spaces yields `" ab"` while the single-space join of `T`'s sentences is
`"ab"` — the concatenation does not reproduce the sentence content. -/
theorem chunk_text_sentence_preservation_cex :
    joinSpace (chunk_text "ab".data 1) ≠
      joinSpace (splitSentences "ab".data) := by decide

/-- C1 (amended): if every sentence of `T` is non-empty and already stripped
(no leading or trailing whitespace) and the first sentence fits the budget
(`length + 1 ≤ B`), then joining `chunk_text T B` with single spaces equals
joining `T`'s sentences with single spaces — every sentence appears exactly
once, in original order, none dropped and none duplicated. -/
theorem chunk_text_preserves_sentences (T : List Char) (B : Nat)
    (hclean : ∀ s ∈ splitSentences T, s ≠ [] ∧ strip s = s)
    (hfit : ((splitSentences T).headD []).length + 1 ≤ B) :
    joinSpace (chunk_text T B) = joinSpace (splitSentences T) := by
  unfold chunk_text
  cases hss : splitSentences T with
  | nil => rfl
  | cons s1 rest =>
    rw [hss] at hclean hfit
    simp only [List.headD_cons] at hfit
    simp only [chunkAux]
    rw [if_pos (by simpa using hfit)]
    have harg : ([] : List Char) ++ s1 ++ [' '] = joinSpace [s1] ++ [' '] := by
      simp [joinSpace, joinSep]
    rw [harg]
    exact chunkAux_join B rest [s1] (List.cons_ne_nil _ _)
      (by
        intro x hx
        rw [List.mem_singleton] at hx
        rw [hx]
        exact hclean s1 (List.mem_cons_self _ _))
      (fun x hx => hclean x (List.mem_cons_of_mem s1 hx))

/-- Witness for C1 (amended): a concrete clean input discharging the
hypotheses. -/
theorem chunk_text_preserves_sentences_witness :
    (∀ s ∈ splitSentences "Hi. Yo.".data, s ≠ [] ∧ strip s = s) ∧
    ((splitSentences "Hi. Yo.".data).headD []).length + 1 ≤ 1000 ∧
    joinSpace (chunk_text "Hi. Yo.".data 1000) =
      joinSpace (splitSentences "Hi. Yo.".data) :=
  ⟨by decide, by decide,
    chunk_text_preserves_sentences "Hi. Yo.".data 1000 (by decide) (by decide)⟩

/-- C2: every chunk fits the budget except a chunk that is (the strip of) a
single sentence whose own length exceeds `B`; such a sentence is emitted as
one oversized chunk rather than split further. -/
theorem chunk_text_soft_bound (T : List Char) (B : Nat) (_hB : 0 < B)
    (c : List Char) (hc : c ∈ chunk_text T B) :
    c.length ≤ B ∨ ∃ s ∈ splitSentences T, c = strip s ∧ B < s.length := by
  refine chunkAux_soft_bound B (splitSentences T) (splitSentences T) []
    (fun x hx => hx) ?_ c hc
  left
  simp [strip, stripLeft]

/-- Witness for C2: the oversized sentence `"Hi."` with budget `1` is
emitted as a single oversized chunk. -/
theorem chunk_text_soft_bound_witness :
    0 < 1 ∧ "Hi.".data ∈ chunk_text "Hi.".data 1 ∧
    ("Hi.".data.length ≤ 1 ∨
      ∃ s ∈ splitSentences "Hi.".data,
        "Hi.".data = strip s ∧ 1 < s.length) :=
  ⟨by decide, by decide,
    chunk_text_soft_bound "Hi.".data 1 (by decide) "Hi.".data (by decide)⟩

/-- C3 (the code_bug evaluated): when the first sentence alone exceeds the
budget while the buffer is still empty, `chunk_text` appends `"".strip()`,
i.e. an empty chunk — contradicting the claim that every chunk is
non-empty.  Here `"ab"` with budget `1` yields `["", "ab"]`. -/
theorem chunk_text_emits_empty_chunk :
    chunk_text "ab".data 1 = [[], "ab".data] := by decide

/-- C4: the empty input yields the empty sequence of chunks for every
positive budget. -/
theorem chunk_text_empty_input (B : Nat) (_hB : 0 < B) :
    chunk_text [] B = [] := by
  show chunkAux B [[]] [] = []
  simp only [chunkAux]
  rw [if_pos (by simpa using _hB)]
  rfl

/-- Witness for C4 at budget `1`. -/
theorem chunk_text_empty_input_witness : 0 < 1 ∧ chunk_text [] 1 = [] :=
  ⟨by decide, chunk_text_empty_input 1 (by decide)⟩

/-- C10: every chunk `chunk_text` emits equals its own whitespace-trimmed
form (the code only ever appends `cur.strip()`, and `strip` is idempotent). -/
theorem chunk_text_chunks_trimmed (T : List Char) (B : Nat) (_hB : 0 < B)
    (c : List Char) (hc : c ∈ chunk_text T B) : strip c = c := by
  obtain ⟨x, hx⟩ := chunkAux_mem_strip B (splitSentences T) [] c hc
  rw [hx]
  exact strip_idem x

/-- Witness for C10 on a concrete chunk. -/
theorem chunk_text_chunks_trimmed_witness :
    0 < 4 ∧ "Hi.".data ∈ chunk_text "Hi. Yo.".data 4 ∧
    strip "Hi.".data = "Hi.".data :=
  ⟨by decide, by decide,
    chunk_text_chunks_trimmed "Hi. Yo.".data 4 (by decide) "Hi.".data
      (by decide)⟩

/-! ### Claims about the reducer -/

/-- C5: when the first pass's concatenation is within the 3000-character
acceptance threshold, `recursive_summarize` returns it unchanged, and the
number of summarizer calls is exactly one per first-pass chunk (no second
round of chunking or summarization happens). -/
theorem recursive_summarize_accepts_first_pass (f : List Char → List Char)
    (text : List Char) (h : (summarizePass f 2000 text).length ≤ 3000) :
    recursive_summarize f text = summarizePass f 2000 text ∧
    summarizeCalls f text = (chunk_text text 2000).length := by
  unfold recursive_summarize summarizeCalls
  rw [if_neg (by omega), if_neg (by omega)]
  exact ⟨rfl, rfl⟩

/-- Witness for C5 on a one-chunk input and a constant summarizer. -/
theorem recursive_summarize_accepts_first_pass_witness :
    (summarizePass (fun _ => "ok".data) 2000 "Hi.".data).length ≤ 3000 ∧
    (recursive_summarize (fun _ => "ok".data) "Hi.".data =
      summarizePass (fun _ => "ok".data) 2000 "Hi.".data ∧
    summarizeCalls (fun _ => "ok".data) "Hi.".data =
      (chunk_text "Hi.".data 2000).length) :=
  ⟨by decide,
    recursive_summarize_accepts_first_pass (fun _ => "ok".data) "Hi.".data
      (by decide)⟩

/-- C6: the bounded Reducer modelled from the spec performs at most
`max_passes = N` chunk-summarize-concatenate passes for every input and
summarizer (and, being structurally recursive on `N`, always terminates);
moreover the source's `recursive_summarize` is exactly this Reducer at
`max_passes = 2` (budget 2000, acceptance threshold 3000). -/
theorem bounded_reducer_pass_bound :
    (∀ (f : List Char → List Char) (budget thr N : Nat) (text : List Char),
      (boundedReduce f budget thr N text).2 ≤ N) ∧
    (∀ (f : List Char → List Char) (text : List Char),
      recursive_summarize f text = (boundedReduce f 2000 3000 2 text).1) := by
  constructor
  · intro f budget thr N
    induction N with
    | zero => intro text; simp [boundedReduce]
    | succ n ih =>
      intro text
      simp only [boundedReduce]
      split
      · exact Nat.succ_le_succ (Nat.zero_le n)
      · exact Nat.succ_le_succ (ih _)
  · intro f text
    have h2 : (2 : Nat) = Nat.succ (Nat.succ 0) := rfl
    unfold recursive_summarize
    rw [h2]
    by_cases h : 3000 < (summarizePass f 2000 text).length
    · rw [if_pos h]
      simp only [boundedReduce]
      rw [if_neg (by omega)]
      by_cases hb : (summarizePass f 2000 (summarizePass f 2000 text)).length
          ≤ 3000
      · rw [if_pos hb]
      · rw [if_neg hb]
    · rw [if_neg h]
      simp only [boundedReduce]
      rw [if_pos (by omega)]

/-! ### Error propagation (C8) -/

theorem mapME_error {ε : Type} (f : List Char → Except ε (List Char)) :
    ∀ (pre : List (List Char)) (c : List Char) (post : List (List Char))
      (e : ε),
    (∀ p ∈ pre, ∃ y, f p = Except.ok y) → f c = Except.error e →
    mapME f (pre ++ c :: post) = Except.error e := by
  intro pre
  induction pre with
  | nil =>
    intro c post e _ hc
    simp [mapME, hc]
  | cons p pre' ih =>
    intro c post e hok hc
    obtain ⟨y, hy⟩ := hok p (List.mem_cons_self _ _)
    simp only [List.cons_append, mapME, hy, List.append_eq]
    rw [ih c post e (fun q hq => hok q (List.mem_cons_of_mem _ hq)) hc]

/-- C8: if the summarizer raises on some chunk of the pass (all chunks
before it succeeding), the whole summarization fails with that very error:
no partial summary is returned. -/
theorem summarize_error_propagates {ε : Type}
    (f : List Char → Except ε (List Char)) (text : List Char)
    (pre : List (List Char)) (c : List Char) (post : List (List Char)) (e : ε)
    (hsplit : chunk_text text 2000 = pre ++ c :: post)
    (hok : ∀ p ∈ pre, ∃ y, f p = Except.ok y)
    (herr : f c = Except.error e) :
    recursive_summarizeE f text = Except.error e := by
  unfold recursive_summarizeE
  rw [hsplit, mapME_error f pre c post e hok herr]

/-- Witness for C8: a summarizer that always raises fails the request on a
concrete one-chunk input. -/
theorem summarize_error_propagates_witness :
    chunk_text "Hi.".data 2000 = [] ++ "Hi.".data :: [] ∧
    recursive_summarizeE
      (fun _ => (Except.error "boom".data : Except (List Char) (List Char)))
      "Hi.".data = Except.error "boom".data :=
  ⟨by decide,
    summarize_error_propagates _ "Hi.".data [] "Hi.".data [] "boom".data
      (by decide) (by simp) rfl⟩

/-! ### The pointwise formatter (C7) -/

theorem isPunct_not_space (a : Char) (h : isPunct a = true) :
    isSpace a = false := by
  simp only [isPunct, Bool.or_eq_true, decide_eq_true_eq] at h
  rcases h with (h | h) | h <;> subst h <;> decide

theorem splitAux_noBoundary :
    ∀ (l acc : List Char), scanOk acc.head? l = true →
      splitAux l (some acc) = [acc.reverse ++ l] := by
  intro l
  induction l with
  | nil =>
    intro acc _
    simp [splitAux]
  | cons c cs ih =>
    intro acc h
    simp only [scanOk, Bool.and_eq_true, Bool.not_eq_true'] at h
    obtain ⟨h1, h2⟩ := h
    simp only [splitAux]
    rw [if_neg (by simp [h1])]
    rw [ih (c :: acc) h2]
    simp

theorem splitSentences_noBoundary (s : List Char)
    (h : scanOk none s = true) : splitSentences s = [s] := by
  have hs := splitAux_noBoundary s [] h
  simpa [splitSentences] using hs

theorem lastO_cons (prev : Option Char) (c : Char) (cs : List Char) :
    lastO prev (c :: cs) = lastO (some c) cs := by
  simp only [lastO, List.reverse_cons]
  cases hr : cs.reverse with
  | nil => simp
  | cons x xs => simp

theorem scanOk_append (b : List Char) :
    ∀ (a : List Char) (prev : Option Char),
      scanOk prev (a ++ b) = (scanOk prev a && scanOk (lastO prev a) b) := by
  intro a
  induction a with
  | nil =>
    intro prev
    simp [scanOk, lastO]
  | cons c cs ih =>
    intro prev
    simp only [List.cons_append, scanOk, lastO_cons, List.append_eq,
      ih (some c), Bool.and_assoc]

theorem bulleted_cons2 (q r : List Char) (rs : List (List Char)) :
    bulleted (q :: r :: rs) =
      ('•' :: ' ' :: q) ++ '\n' :: bulleted (r :: rs) := by
  simp only [bulleted, List.map_cons]
  rw [joinSep_cons2]
  simp [List.append_assoc]

theorem bulleted_head (q : List Char) (rest : List (List Char)) :
    ∃ t, bulleted (q :: rest) = '•' :: t := by
  cases rest with
  | nil => exact ⟨' ' :: q, rfl⟩
  | cons r rs =>
    refine ⟨' ' :: q ++ '\n' :: bulleted (r :: rs), ?_⟩
    rw [bulleted_cons2]
    simp

theorem scanOk_bulleted :
    ∀ ps : List (List Char), (∀ p ∈ ps, scanOk (some ' ') p = true) →
      scanOk none (bulleted ps) = true := by
  intro ps
  induction ps with
  | nil => intro _; rfl
  | cons q rest ih =>
    intro h
    have hq := h q (List.mem_cons_self _ _)
    cases rest with
    | nil => exact hq
    | cons r rs =>
      rw [bulleted_cons2, scanOk_append]
      have h1 : scanOk none ('•' :: ' ' :: q) = true := hq
      rw [h1, Bool.true_and]
      obtain ⟨t, ht⟩ := bulleted_head r rs
      have h2 := ih (fun p hp => h p (List.mem_cons_of_mem _ hp))
      rw [ht] at h2 ⊢
      exact h2

theorem bulleted_strip (ps : List (List Char)) (hps : ps ≠ [])
    (h : ∀ p ∈ ps, p ≠ [] ∧ endsPunct p = true) :
    strip (bulleted ps) = bulleted ps := by
  apply strip_eq_self
  · intro a ha
    cases ps with
    | nil => exact absurd rfl hps
    | cons q rest =>
      obtain ⟨t, ht⟩ := bulleted_head q rest
      rw [ht] at ha
      simp only [List.head?_cons, Option.some.injEq] at ha
      rw [← ha]
      rfl
  · intro a ha
    rcases List.eq_nil_or_concat ps with rfl | ⟨A, p, hap⟩
    · exact absurd rfl hps
    · rw [List.concat_eq_append] at hap
      subst hap
      have hp := h p (by simp)
      have hpunct : ∀ b w, p.reverse = b :: w → isSpace b = false := by
        intro b w hpr
        have he := hp.2
        simp only [endsPunct, hpr] at he
        exact isPunct_not_space b he
      have hrev : (bulleted (A ++ [p])).reverse.head? = p.reverse.head? := by
        cases A with
        | nil =>
          show (('•' :: ' ' :: p).reverse).head? = p.reverse.head?
          cases hpr : p.reverse with
          | nil =>
            exact absurd (by simpa using congrArg List.reverse hpr) hp.1
          | cons b w => simp [hpr]
        | cons x A' =>
          have hsnoc : bulleted ((x :: A') ++ [p]) =
              bulleted (x :: A') ++ '\n' :: ('•' :: ' ' :: p) := by
            simp only [bulleted, List.map_append, List.map_cons, List.map_nil]
            rw [joinSep_append ['\n'] _ _ (by simp) (by simp)]
            simp [List.append_assoc, joinSep]
          rw [hsnoc, List.reverse_append]
          cases hpr : p.reverse with
          | nil =>
            exact absurd (by simpa using congrArg List.reverse hpr) hp.1
          | cons b w => simp [hpr]
      rw [hrev] at ha
      cases hpr : p.reverse with
      | nil => exact absurd (by simpa using congrArg List.reverse hpr) hp.1
      | cons b w =>
        rw [hpr] at ha
        simp only [List.head?_cons, Option.some.injEq] at ha
        rw [← ha]
        exact hpunct b w hpr

theorem splitOnChar_not_mem (c : Char) (l : List Char) (h : c ∉ l) :
    splitOnChar c l = [l] := by
  induction l with
  | nil => rfl
  | cons x xs ih =>
    have hx : ¬x = c := by
      intro he
      exact h (he ▸ List.mem_cons_self x xs)
    simp only [splitOnChar]
    rw [if_neg hx, ih (fun hc => h (List.mem_cons_of_mem x hc))]

theorem splitOnChar_append_cons (c : Char) (a b : List Char) (h : c ∉ a) :
    splitOnChar c (a ++ c :: b) = a :: splitOnChar c b := by
  induction a with
  | nil => simp [splitOnChar]
  | cons x xs ih =>
    have hx : ¬x = c := by
      intro he
      exact h (he ▸ List.mem_cons_self x xs)
    simp only [List.cons_append, splitOnChar, List.append_eq]
    rw [if_neg hx, ih (fun hc => h (List.mem_cons_of_mem x hc))]

theorem not_newline_in_line (q : List Char) (hq : ('\n' : Char) ∉ q) :
    ('\n' : Char) ∉ '•' :: ' ' :: q := by
  intro hm
  rcases List.mem_cons.mp hm with h1 | hm'
  · exact absurd h1 (by decide)
  rcases List.mem_cons.mp hm' with h2 | h3
  · exact absurd h2 (by decide)
  · exact hq h3

theorem lines_bulleted :
    ∀ ps : List (List Char), (∀ p ∈ ps, ('\n' : Char) ∉ p) → ps ≠ [] →
      splitOnChar '\n' (bulleted ps) =
        ps.map (fun p => '•' :: ' ' :: p) := by
  intro ps
  induction ps with
  | nil =>
    intro _ h
    exact absurd rfl h
  | cons q rest ih =>
    intro h _
    have hq := not_newline_in_line q (h q (List.mem_cons_self _ _))
    cases rest with
    | nil => exact splitOnChar_not_mem _ _ hq
    | cons r rs =>
      rw [bulleted_cons2, splitOnChar_append_cons _ _ _ hq,
        ih (fun p hp => h p (List.mem_cons_of_mem _ hp))
          (List.cons_ne_nil _ _)]
      simp

theorem countP_bullet_lines (ps : List (List Char)) :
    (ps.map (fun p => '•' :: ' ' :: p)).countP startsBullet = ps.length := by
  induction ps with
  | nil => rfl
  | cons q rest ih =>
    have hsb : startsBullet ('•' :: ' ' :: q) = true := rfl
    simp [List.countP_cons, ih, hsb]

theorem format_single (S : List Char) (hsplit : splitSentences S = [S])
    (hstrip : strip S = S) (hne : S ≠ []) :
    format_summary_pointwise S = '•' :: ' ' :: S := by
  unfold format_summary_pointwise
  rw [hsplit]
  have hcond : (!(strip S).isEmpty) = true := by
    rw [hstrip]
    cases S with
    | nil => exact absurd rfl hne
    | cons a w => rfl
  rw [List.filter_cons, if_pos hcond]
  simp [hstrip, joinSep]

/-- C7: applying the pointwise formatter to a summary that is already
bulleted with one sentence per line (each line non-empty, ending in
sentence punctuation, containing no internal sentence boundary and no
newline) produces a summary with the same number of bullet points, where a
bullet point is a line starting with the bullet character. -/
theorem format_pointwise_bullet_count (ps : List (List Char)) (hps : ps ≠ [])
    (h : ∀ p ∈ ps, p ≠ [] ∧ endsPunct p = true ∧
      scanOk (some ' ') p = true ∧ ('\n' : Char) ∉ p) :
    countBullets (format_summary_pointwise (bulleted ps)) =
      countBullets (bulleted ps) := by
  have hsplit : splitSentences (bulleted ps) = [bulleted ps] :=
    splitSentences_noBoundary _
      (scanOk_bulleted ps (fun p hp => (h p hp).2.2.1))
  have hstrip : strip (bulleted ps) = bulleted ps :=
    bulleted_strip ps hps (fun p hp => ⟨(h p hp).1, (h p hp).2.1⟩)
  have hnl : ∀ p ∈ ps, ('\n' : Char) ∉ p := fun p hp => (h p hp).2.2.2
  cases ps with
  | nil => exact absurd rfl hps
  | cons q rest =>
    have hne : bulleted (q :: rest) ≠ [] := by
      obtain ⟨t, ht⟩ := bulleted_head q rest
      rw [ht]
      exact List.cons_ne_nil _ _
    rw [format_single (bulleted (q :: rest)) hsplit hstrip hne]
    have hrhs : countBullets (bulleted (q :: rest)) = (q :: rest).length := by
      unfold countBullets
      rw [lines_bulleted (q :: rest) hnl (List.cons_ne_nil _ _)]
      exact countP_bullet_lines (q :: rest)
    rw [hrhs]
    have hq := not_newline_in_line q (hnl q (List.mem_cons_self _ _))
    cases rest with
    | nil =>
      unfold countBullets
      have hnlS : ('\n' : Char) ∉ '•' :: ' ' :: bulleted [q] :=
        not_newline_in_line (bulleted [q]) hq
      have hsb : startsBullet ('•' :: ' ' :: bulleted [q]) = true := rfl
      rw [splitOnChar_not_mem _ _ hnlS]
      simp [List.countP_cons, hsb]
    | cons r rs =>
      unfold countBullets
      have harr : '•' :: ' ' :: bulleted (q :: r :: rs) =
          ('•' :: ' ' :: ('•' :: ' ' :: q)) ++ '\n' :: bulleted (r :: rs) := by
        rw [bulleted_cons2]
        rfl
      have hsb : startsBullet ('•' :: ' ' :: ('•' :: ' ' :: q)) = true := rfl
      rw [harr,
        splitOnChar_append_cons _ _ _ (not_newline_in_line _ hq),
        lines_bulleted (r :: rs) (fun p hp => hnl p (List.mem_cons_of_mem _ hp))
          (List.cons_ne_nil _ _),
        List.countP_cons, countP_bullet_lines (r :: rs), hsb]
      simp

/-- Witness for C7 on the concrete bulleted summary `"• A.\n• B."`. -/
theorem format_pointwise_bullet_count_witness :
    (["A.".data, "B.".data] ≠ [] ∧
      (∀ p ∈ ["A.".data, "B.".data], p ≠ [] ∧ endsPunct p = true ∧
        scanOk (some ' ') p = true ∧ ('\n' : Char) ∉ p)) ∧
    countBullets (format_summary_pointwise (bulleted ["A.".data, "B.".data])) =
      countBullets (bulleted ["A.".data, "B.".data]) :=
  ⟨⟨by decide, by decide⟩,
    format_pointwise_bullet_count ["A.".data, "B.".data] (by decide)
      (by decide)⟩

/-! ### Refinement without a credential (C9) -/

/-- C9: with no API key configured, app.py's `refine_with_llm` returns the
input summary unchanged with no error — but app2.py's variant returns a bare
string where its caller unpacks a 2-tuple, so on any summary that is not
exactly 2 characters long (here the bulleted `"• A. B. C."`) the caller
raises `ValueError` instead of passing the summary through. -/
theorem refine_no_key_behavior :
    (∀ (llm : List Char → Except (List Char) (List Char)) (s : List Char),
      refine_with_llm none llm s = (s, none)) ∧
    (∀ llm : List Char → Except (List Char) (List Char),
      unpackRefine (refine_with_llm_app2 none llm "• A. B. C.".data) =
        Except.error "ValueError: unpack".data) := by
  exact ⟨fun _ _ => rfl, fun _ => rfl⟩

end YTSum
